import Mathlib

/-!
Verification development for the `gj` asynchronous I/O runtime.

The development shallowly embeds the data model and operations of the
repository: the generation-checked handle table, the per-descriptor
observer state, the reactor registration lifecycle, the unix
listener/stream operations (`bind`, `accept`, `try_clone`,
`from_raw_fd`, `new_pair`, the `Drop` implementations), the reactor's
`run_once` pass, the `join_all` promise combinator, and the echo test
scenario.  Components whose source files are not part of the
repository snapshot (the handle table internals, the observer
internals, the promise core, the generic stream read/write loops and
`run_once`) are modelled from the specification; each such definition
says so in its doc comment.
-/

namespace Gj

/-- An I/O error, identified abstractly by a numeric code
(mirrors `std::io::Error` as an opaque value). -/
structure IoError where
  code : Nat
deriving DecidableEq, Repr

/-! ## Handle table

Modelled from the spec: the file `handle_table.rs` is not part of the
snapshot (only its declarations `HandleTable`/`Handle` are imported by
`sys/epoll.rs` and `io/unix.rs`).  Spec 4.1: slots are reused densely
through a free list of indices; each slot carries a generation counter
that changes on reuse; the issued handle embeds the generation; a
lookup with a mismatched generation fails rather than aliasing the
new occupant. -/

/-- A generation-checked reference to a slot of the handle table.
`idx` is what the code exposes as `handle.val` for the `mio::Token`. -/
structure Handle where
  idx : Nat
  gen : Nat
deriving DecidableEq, Repr

/-- The token value embedded in `mio::Token(handle.val)`. -/
def Handle.val (h : Handle) : Nat := h.idx

/-- One slot of the handle table: its current generation and the
occupant, if any. -/
structure Slot (α : Type) where
  gen : Nat
  value : Option α
deriving Repr, DecidableEq

/-- Modelled from the spec: the handle table stores slots densely and
keeps a free list of vacated indices for reuse. -/
structure HandleTable (α : Type) where
  slots : List (Slot α)
  freeList : List Nat
deriving Repr, DecidableEq

def HandleTable.empty {α : Type} : HandleTable α := ⟨[], []⟩

/-- Modelled from the spec: indexing by a handle succeeds only when the
slot exists and its generation matches the generation embedded in the
handle; otherwise the lookup fails (`none`). -/
def HandleTable.get {α : Type} (t : HandleTable α) (h : Handle) : Option α :=
  match t.slots[h.idx]? with
  | some s => if s.gen = h.gen then s.value else none
  | none => none

/-- Modelled from the spec: `insert` stores a new observer, reusing a
vacant slot from the free list when one is available (keeping that
slot's current generation, which was bumped when the slot was freed)
and appending a fresh slot otherwise; the returned handle embeds the
slot's generation. -/
def HandleTable.insert {α : Type} (t : HandleTable α) (a : α) :
    Handle × HandleTable α :=
  match t.freeList with
  | [] => (⟨t.slots.length, 0⟩, ⟨t.slots ++ [⟨0, some a⟩], t.freeList⟩)
  | i :: rest =>
    match t.slots[i]? with
    | some s =>
      match s.value with
      | none => (⟨i, s.gen⟩, ⟨t.slots.set i ⟨s.gen, some a⟩, rest⟩)
      | some _ => (⟨t.slots.length, 0⟩, ⟨t.slots ++ [⟨0, some a⟩], rest⟩)
    | none => (⟨t.slots.length, 0⟩, ⟨t.slots ++ [⟨0, some a⟩], rest⟩)

/-- Modelled from the spec: `remove` invalidates the handle (bumping
the slot's generation so later reuse never aliases) and returns the
occupant; it fails with `none` if the handle was already removed or
never issued. -/
def HandleTable.remove {α : Type} (t : HandleTable α) (h : Handle) :
    Option (α × HandleTable α) :=
  match t.slots[h.idx]? with
  | some s =>
    if s.gen = h.gen then
      match s.value with
      | some a =>
        some (a, ⟨t.slots.set h.idx ⟨s.gen + 1, none⟩, h.idx :: t.freeList⟩)
      | none => none
    else none
  | none => none

/-- A handle-table operation: an arbitrary interleaving of inserts and
removes. -/
inductive Op (α : Type) where
  | ins (a : α)
  | rem (h : Handle)

def HandleTable.applyOp {α : Type} (t : HandleTable α) : Op α → HandleTable α
  | .ins a => (t.insert a).2
  | .rem h =>
    match t.remove h with
    | some (_, t2) => t2
    | none => t

def HandleTable.applyOps {α : Type} (t : HandleTable α) (ops : List (Op α)) :
    HandleTable α :=
  ops.foldl HandleTable.applyOp t

theorem remove_eq_some {α : Type} {t : HandleTable α} {h : Handle} {a : α}
    {t2 : HandleTable α} (hrem : t.remove h = some (a, t2)) :
    ∃ s, t.slots[h.idx]? = some s ∧ s.gen = h.gen ∧ s.value = some a ∧
      t2.slots = t.slots.set h.idx ⟨s.gen + 1, none⟩ := by
  unfold HandleTable.remove at hrem
  split at hrem
  case h_2 => exact Option.noConfusion hrem
  case h_1 s heq =>
    split at hrem
    case isFalse => exact Option.noConfusion hrem
    case isTrue hg =>
      split at hrem
      case h_2 => exact Option.noConfusion hrem
      case h_1 b hval =>
        obtain ⟨ha, ht⟩ := Prod.mk.injEq .. ▸ Option.some.inj hrem
        exact ⟨s, heq, hg, ha ▸ hval, by rw [← ht]⟩

/-- Slot generations never decrease under any table operation, and a
slot that exists keeps existing. -/
theorem genMono_applyOp {α : Type} (t : HandleTable α) (o : Op α) (i : Nat)
    {s : Slot α} (hget : t.slots[i]? = some s) :
    ∃ s2, (t.applyOp o).slots[i]? = some s2 ∧ s.gen ≤ s2.gen := by
  have hlen : i < t.slots.length := by
    by_contra hge
    rw [List.getElem?_eq_none (Nat.le_of_not_lt hge)] at hget
    exact Option.noConfusion hget
  cases o with
  | ins a =>
    show ∃ s2, ((t.insert a).2).slots[i]? = some s2 ∧ s.gen ≤ s2.gen
    unfold HandleTable.insert
    split
    · exact ⟨s, by rw [List.getElem?_append_left hlen]; exact hget, Nat.le_refl _⟩
    case h_2 j rest heq =>
      split
      case h_1 sj hj =>
        split
        · by_cases hij : j = i
          · subst hij
            have hsj : sj = s := Option.some.inj (hj ▸ hget)
            exact ⟨⟨sj.gen, some a⟩, by
              simpa using List.getElem?_set_eq_of_lt (⟨sj.gen, some a⟩) hlen,
              by simp [hsj]⟩
          · exact ⟨s, by
              simpa [List.getElem?_set_ne hij] using hget, Nat.le_refl _⟩
        · exact ⟨s, by
            simpa [List.getElem?_append_left hlen] using hget, Nat.le_refl _⟩
      case h_2 =>
        exact ⟨s, by
          simpa [List.getElem?_append_left hlen] using hget, Nat.le_refl _⟩
  | rem h2 =>
    show ∃ s2,
      (match t.remove h2 with
       | some (_, t2) => t2
       | none => t).slots[i]? = some s2 ∧ s.gen ≤ s2.gen
    split
    case h_2 => exact ⟨s, hget, Nat.le_refl _⟩
    case h_1 a t2 heq =>
      obtain ⟨s2, hs2, hg2, hv2, hslots⟩ := remove_eq_some heq
      rw [hslots]
      by_cases hij : h2.idx = i
      · subst hij
        have : s2 = s := Option.some.inj (hs2 ▸ hget)
        subst this
        exact ⟨⟨s2.gen + 1, none⟩, by
          simpa using List.getElem?_set_eq_of_lt (⟨s2.gen + 1, none⟩) hlen,
          Nat.le_succ _⟩
      · exact ⟨s, by simpa [List.getElem?_set_ne hij] using hget, Nat.le_refl _⟩

/-- A handle is stale in a table when its slot exists but has moved to
a strictly larger generation. -/
def Stale {α : Type} (t : HandleTable α) (h : Handle) : Prop :=
  ∃ s, t.slots[h.idx]? = some s ∧ h.gen < s.gen

theorem get_eq_none_of_stale {α : Type} {t : HandleTable α} {h : Handle}
    (hs : Stale t h) : t.get h = none := by
  obtain ⟨s, hget, hlt⟩ := hs
  unfold HandleTable.get
  rw [hget]
  simp [Nat.ne_of_gt hlt]

theorem stale_applyOps {α : Type} {t : HandleTable α} {h : Handle}
    (ops : List (Op α)) (hs : Stale t h) : Stale (t.applyOps ops) h := by
  induction ops generalizing t with
  | nil => exact hs
  | cons o rest ih =>
    obtain ⟨s, hget, hlt⟩ := hs
    obtain ⟨s2, hget2, hle⟩ := genMono_applyOp t o h.idx hget
    exact ih ⟨s2, hget2, Nat.lt_of_lt_of_le hlt hle⟩

theorem stale_after_remove {α : Type} {t : HandleTable α} {h : Handle}
    {a : α} {t2 : HandleTable α} (hrem : t.remove h = some (a, t2)) :
    Stale t2 h := by
  obtain ⟨s, hget, hg, hv, hslots⟩ := remove_eq_some hrem
  have hlen : h.idx < t.slots.length := by
    by_contra hge
    rw [List.getElem?_eq_none (Nat.le_of_not_lt hge)] at hget
    exact Option.noConfusion hget
  refine ⟨⟨s.gen + 1, none⟩, ?_, ?_⟩
  · rw [hslots]
    simpa using List.getElem?_set_eq_of_lt (⟨s.gen + 1, none⟩) hlen
  · rw [← hg]; exact Nat.lt_succ_self _

/-- Claim C1: for every sequence of insert and remove operations on the
handle table, a handle that has been removed never successfully indexes
its slot again — in particular after the slot has been reused by any
later insert, a lookup with the (now mismatched) generation fails with
the invalid-handle condition (`none`) rather than aliasing the new
occupant. -/
theorem claim_c1 {α : Type} (t : HandleTable α) (h : Handle) (a : α)
    (t2 : HandleTable α) (hrem : t.remove h = some (a, t2))
    (ops : List (Op α)) :
    (t2.applyOps ops).get h = none :=
  get_eq_none_of_stale (stale_applyOps ops (stale_after_remove hrem))

/-- Witness for C1: the table holding one element 7 in slot 0 (as
produced by inserting into the empty table); removing handle (0,0) and
reinserting a new element 9 reuses slot 0, and the stale handle no
longer indexes the slot. -/
theorem claim_c1_witness :
    ((⟨[⟨1, none⟩], [0]⟩ : HandleTable Nat).applyOps [Op.ins 9]).get ⟨0, 0⟩ =
      none :=
  claim_c1 ⟨[⟨0, some 7⟩], []⟩ ⟨0, 0⟩ 7 ⟨[⟨1, none⟩], [0]⟩ (by decide)
    [Op.ins 9]

/-! ## Fd observer, reactor registrations, and the unix module state -/

/-- Modelled from the spec (3, 4.2): per-descriptor readiness state —
at most one pending read-waiter, at most one pending write-waiter, and
the last observed readiness flags.  The observer's source file is not
part of the snapshot. -/
structure FdObserver where
  readWaiter : Bool
  writeWaiter : Bool
  lastReadable : Bool
  lastWritable : Bool
deriving DecidableEq, Repr

def FdObserver.fresh : FdObserver := ⟨false, false, false, false⟩

/-- A reactor registration, as armed by a `mio` register call:
descriptor, token, interest set (readable/writable) and whether
edge-triggered mode was requested. -/
structure Registration where
  fd : Nat
  token : Nat
  readable : Bool
  writable : Bool
  edge : Bool
deriving DecidableEq, Repr

/-- The per-thread event-loop state visible to the unix module: the
handle table of observers (`event_port.handler.observers`) and the
reactor's OS-level registrations. -/
structure LoopState where
  observers : HandleTable FdObserver
  registrations : List Registration
deriving Repr, DecidableEq

/-- A unix `Listener`: its descriptor and its observer handle. -/
structure Listener where
  fd : Nat
  handle : Handle
deriving DecidableEq, Repr

/-- A unix `Stream`: its descriptor and its observer handle
(`Stream::new(stream, handle)`). -/
structure Stream where
  fd : Nat
  handle : Handle
deriving DecidableEq, Repr

/-- Modelled from the spec: `FdObserver::new()` (source not in the
snapshot) stores a fresh observer in the current event loop's handle
table and returns its handle. -/
def FdObserver.new (st : LoopState) : Handle × LoopState :=
  let p := st.observers.insert FdObserver.fresh
  (p.1, { st with observers := p.2 })

/-- A `mio` register call: arms OS-level notification for the given
interest under the given token.  The OS outcome is supplied by the
environment as `regErr`. -/
def Reactor.register (st : LoopState) (fd token : Nat)
    (readable writable edge : Bool) (regErr : Option IoError) :
    Except IoError LoopState :=
  match regErr with
  | some e => .error e
  | none => .ok { st with registrations :=
      st.registrations ++ [⟨fd, token, readable, writable, edge⟩] }

/-- A `mio` deregister call: removes OS-level tracking for the
descriptor, tolerating a descriptor that was never fully armed. -/
def Reactor.deregister (st : LoopState) (fd : Nat) : LoopState :=
  { st with registrations := st.registrations.filter (fun r => r.fd != fd) }

/-- Modelled from the spec: `register_new_handle` (its source
`io/mod.rs` is not in the snapshot) creates a new observer handle and
registers the descriptor with both readable and writable interest,
edge-triggered, under token `handle.val`. -/
def registerNewHandle (st : LoopState) (fd : Nat) (regErr : Option IoError) :
    Except IoError (Handle × LoopState) :=
  let p := FdObserver.new st
  match Reactor.register p.2 fd p.1.val true true true regErr with
  | .error e => .error e
  | .ok st2 => .ok (p.1, st2)

/-- Embedding of `Listener::bind` (src/src/io/unix.rs, lines 48-66):
bind the mio listener (OS outcome supplied as `bindResult`, yielding
the listening descriptor), create a fresh observer handle
(`FdObserver::new()`), and register the descriptor with
`EventSet::readable()` interest and `PollOpt::edge()` under token
`handle.val`. -/
def Listener.bind (st : LoopState) (bindResult : Except IoError Nat)
    (regErr : Option IoError) : Except IoError (Listener × LoopState) :=
  match bindResult with
  | .error e => .error e
  | .ok fd =>
    let p := FdObserver.new st
    match Reactor.register p.2 fd p.1.val true false true regErr with
    | .error e => .error e
    | .ok st2 => .ok (⟨fd, p.1⟩, st2)

/-- Embedding of `impl Drop for Listener` (src/src/io/unix.rs, lines
38-45): remove the observer entry for the listener's handle (the
returned observer is discarded) and deregister the listening socket
from the reactor (the result is discarded: `let _ = ...`). -/
def Listener.drop (st : LoopState) (l : Listener) : LoopState :=
  let obs :=
    match st.observers.remove l.handle with
    | some p => p.2
    | none => st.observers
  Reactor.deregister { st with observers := obs } l.fd

/-- One step of the `accept_internal` trace: a non-blocking accept
attempt, or an `awaitReadable` suspension on the observer's
`when_becomes_readable` promise. -/
inductive AcceptStep where
  | attempt
  | awaitReadable
deriving DecidableEq, Repr

/-- Environment for one iteration of `accept_internal`: the outcome of
the non-blocking `listener.accept()` call — an OS error, an accepted
connection (with the outcome of registering its new handle), or
would-block (`Ok(None)`, together with the eventual outcome of the
readiness wait). -/
inductive AcceptAttempt where
  | fatal (e : IoError)
  | conn (fd : Nat) (regErr : Option IoError)
  | wouldBlock (readiness : Except IoError Unit)

/-- Mirrors `gj::Error<S>`: pairs the failure with the moved-back
resource (`Error::new(state, error)`). -/
structure GjError (σ : Type) where
  state : σ
  error : IoError
deriving DecidableEq, Repr

inductive AcceptOutcome where
  | ok (l : Listener) (s : Stream)
  | err (e : GjError Listener)
  | pending
deriving DecidableEq, Repr

/-- Embedding of `Listener::accept_internal` (src/src/io/unix.rs,
lines 68-94): perform a non-blocking accept attempt; on `Err(e)` fail
with `Error::new(self, e)`; on an accepted connection register a new
handle for the stream (failing with `Error::new(self, e)` if
registration fails) and resolve with `(self, Stream::new(..))`; on
would-block, chain behind `when_becomes_readable()` and retry on
readiness (failing with `Error::new(self, e)` if the readiness wait
fails).  Returns the trace of attempt/await steps, the outcome
(`pending` when the environment list is exhausted while still
waiting), and the updated loop state. -/
def Listener.acceptInternal (st : LoopState) (l : Listener) :
    List AcceptAttempt → List AcceptStep × AcceptOutcome × LoopState
  | [] => ([], .pending, st)
  | .fatal e :: _ => ([.attempt], .err ⟨l, e⟩, st)
  | .conn fd regErr :: _ =>
    match registerNewHandle st fd regErr with
    | .error e => ([.attempt], .err ⟨l, e⟩, st)
    | .ok (h, st2) => ([.attempt], .ok l ⟨fd, h⟩, st2)
  | .wouldBlock (.error e) :: _ => ([.attempt, .awaitReadable], .err ⟨l, e⟩, st)
  | .wouldBlock (.ok _) :: rest =>
    let r := Listener.acceptInternal st l rest
    (.attempt :: .awaitReadable :: r.1, r.2)

/-- Embedding of `Listener::accept` (lines 96-98): defers one turn
(`Promise::ok(()).then(..)`) and then runs `accept_internal`; trace,
outcome and state coincide with `accept_internal`. -/
def Listener.accept (st : LoopState) (l : Listener)
    (env : List AcceptAttempt) : List AcceptStep × AcceptOutcome × LoopState :=
  Listener.acceptInternal st l env

/-! ## OS-level state for stream construction -/

/-- The OS-visible state threaded through stream construction: the
event-loop state, a fresh-descriptor counter, and the set of
descriptors with `O_NONBLOCK` set. -/
structure SysState where
  loopSt : LoopState
  nextFd : Nat
  nonblocking : List Nat
deriving Repr

/-- A system call made during stream construction, recorded in order. -/
inductive SysCall where
  | fcntlSetNonblock (fd : Nat)
  | register (fd : Nat)
deriving DecidableEq, Repr

/-- Embedding of `Stream::try_clone` (src/src/io/unix.rs, lines
142-146): duplicate the descriptor (a fresh OS fd; the dup shares the
open file description, so `O_NONBLOCK` carries over; OS failure
supplied as `dupErr`), register a fresh observer handle for the
duplicate, and return the new independent `Stream`. -/
def Stream.tryClone (st : SysState) (s : Stream) (dupErr : Option IoError)
    (regErr : Option IoError) : Except IoError (Stream × SysState) :=
  match dupErr with
  | some e => .error e
  | none =>
    let fd2 := st.nextFd
    let st1 : SysState :=
      { st with nextFd := st.nextFd + 1,
                nonblocking := if s.fd ∈ st.nonblocking
                               then fd2 :: st.nonblocking
                               else st.nonblocking }
    match registerNewHandle st1.loopSt fd2 regErr with
    | .error e => .error e
    | .ok (h, lst2) => .ok (⟨fd2, h⟩, { st1 with loopSt := lst2 })

/-- Modelled from the spec (3): dropping a `Stream` deregisters it
from the reactor and releases its handle (the `Drop` impl lives in the
generic stream module, which is not in the snapshot). -/
def Stream.drop (st : SysState) (s : Stream) : SysState :=
  let obs :=
    match st.loopSt.observers.remove s.handle with
    | some p => p.2
    | none => st.loopSt.observers
  { st with loopSt :=
      Reactor.deregister { st.loopSt with observers := obs } s.fd }

/-- Embedding of `Stream::from_raw_fd` (src/src/io/unix.rs, lines
150-156): first set `O_NONBLOCK` on the descriptor via
`fcntl(F_SETFL(O_NONBLOCK))` (OS failure supplied as `fcntlErr`), then
register a new observer handle for it.  The returned trace records the
system calls in the order they were made. -/
def Stream.fromRawFd (st : SysState) (fd : Nat)
    (fcntlErr regErr : Option IoError) :
    (Except IoError (Stream × SysState)) × List SysCall :=
  match fcntlErr with
  | some e => (.error e, [.fcntlSetNonblock fd])
  | none =>
    let st1 : SysState := { st with nonblocking := fd :: st.nonblocking }
    match registerNewHandle st1.loopSt fd regErr with
    | .error e => (.error e, [.fcntlSetNonblock fd, .register fd])
    | .ok (h, lst2) =>
      (.ok (⟨fd, h⟩, { st1 with loopSt := lst2 }),
       [.fcntlSetNonblock fd, .register fd])

/-- Embedding of `Stream::new_pair` (src/src/io/unix.rs, lines
123-140): create a socketpair — two fresh descriptors, created with
`SOCK_NONBLOCK | SOCK_CLOEXEC` (OS failure supplied as `spErr`) — and
build each end with `Stream::from_raw_fd`. -/
def Stream.newPair (st : SysState) (spErr : Option IoError)
    (fcntlErr1 regErr1 fcntlErr2 regErr2 : Option IoError) :
    (Except IoError (Stream × Stream × SysState)) × List SysCall :=
  match spErr with
  | some e => (.error e, [])
  | none =>
    let fd1 := st.nextFd
    let fd2 := st.nextFd + 1
    let st0 : SysState :=
      { st with nextFd := st.nextFd + 2,
                nonblocking := fd1 :: fd2 :: st.nonblocking }
    match Stream.fromRawFd st0 fd1 fcntlErr1 regErr1 with
    | (.error e, tr) => (.error e, tr)
    | (.ok (s1, st1), tr1) =>
      match Stream.fromRawFd st1 fd2 fcntlErr2 regErr2 with
      | (.error e, tr2) => (.error e, tr1 ++ tr2)
      | (.ok (s2, st2), tr2) => (.ok (s1, s2, st2), tr1 ++ tr2)

/-! ## The reactor's run-once pass -/

/-- Look up the observer stored at slot `i`: the event token embeds
only the slot index, mirroring `mio::Token(handle.val)`. -/
def HandleTable.getByIdx {α : Type} (t : HandleTable α) (i : Nat) : Option α :=
  match t.slots[i]? with
  | some s => s.value
  | none => none

/-- Replace the occupant of slot `i`, keeping its generation. -/
def HandleTable.setByIdx {α : Type} (t : HandleTable α) (i : Nat) (a : α) :
    HandleTable α :=
  match t.slots[i]? with
  | some s => ⟨t.slots.set i ⟨s.gen, some a⟩, t.freeList⟩
  | none => t

/-- A readiness event reported by the OS poll: the token it was
registered under and the ready directions. -/
structure Event where
  token : Nat
  readable : Bool
  writable : Bool
deriving DecidableEq, Repr

inductive Dir where
  | read
  | write
deriving DecidableEq, Repr

/-- Modelled from the spec (4.3): deliver one readiness event — look
up the observer by its handle token; for each ready direction fulfill
the armed waiter (clearing it and recording the fulfilment), or record
last-observed readiness when no waiter is armed; an event whose token
matches no observer is dropped. -/
def deliverEvent (acc : LoopState × List (Nat × Dir)) (ev : Event) :
    LoopState × List (Nat × Dir) :=
  match acc.1.observers.getByIdx ev.token with
  | none => acc
  | some o =>
    let p1 : FdObserver × List (Nat × Dir) :=
      if ev.readable then
        if o.readWaiter then
          ({ o with readWaiter := false }, [(ev.token, Dir.read)])
        else ({ o with lastReadable := true }, [])
      else (o, [])
    let p2 : FdObserver × List (Nat × Dir) :=
      if ev.writable then
        if p1.1.writeWaiter then
          ({ p1.1 with writeWaiter := false }, [(ev.token, Dir.write)])
        else ({ p1.1 with lastWritable := true }, [])
      else (p1.1, [])
    ({ acc.1 with observers := acc.1.observers.setByIdx ev.token p2.1 },
     acc.2 ++ p1.2 ++ p2.2)

/-- Modelled from the spec (4.3): `run_once` performs one bounded wait
for OS readiness events (the poll outcome is supplied as
`pollResult`), then dispatches each reported event in order; an error
returned by the poll call itself is returned to the caller of
`run_once` unchanged, never swallowed.  (`Reactor::run_once` in
`sys/epoll.rs` is left unimplemented in the snapshot.) -/
def Reactor.runOnce (st : LoopState)
    (pollResult : Except IoError (List Event)) :
    Except IoError (LoopState × List (Nat × Dir)) :=
  match pollResult with
  | .error e => .error e
  | .ok evs => .ok (evs.foldl deliverEvent (st, []))

/-- Modelled from the spec (4.2): `when_becomes_readable` arms the
observer's pending read-waiter; installing a waiter does not itself
poll the OS. -/
def armRead (st : LoopState) (h : Handle) : LoopState :=
  match st.observers.get h with
  | some o =>
    { st with observers :=
        st.observers.setByIdx h.idx { o with readWaiter := true } }
  | none => st

/-! ## Further handle-table lemmas -/

theorem get_eq_some {α : Type} {t : HandleTable α} {h : Handle} {a : α}
    (hget : t.get h = some a) :
    ∃ s, t.slots[h.idx]? = some s ∧ s.gen = h.gen ∧ s.value = some a := by
  unfold HandleTable.get at hget
  split at hget
  case h_2 => exact Option.noConfusion hget
  case h_1 s hs =>
    split at hget
    case isTrue hg => exact ⟨s, hs, hg, hget⟩
    case isFalse => exact Option.noConfusion hget

theorem get_eq_none_of_remove_none {α : Type} {t : HandleTable α} {h : Handle}
    (hrem : t.remove h = none) : t.get h = none := by
  cases hget : t.get h with
  | none => rfl
  | some a =>
    obtain ⟨s, hs, hg, hv⟩ := get_eq_some hget
    unfold HandleTable.remove at hrem
    simp [hs, hg, hv] at hrem

/-- Shape of `insert`: either a fresh slot is appended, or a vacant
slot from the free list is reused keeping its generation. -/
theorem insert_spec {α : Type} (t : HandleTable α) (a : α) :
    ((t.insert a).1 = ⟨t.slots.length, 0⟩ ∧
      (t.insert a).2.slots = t.slots ++ [⟨0, some a⟩]) ∨
    (∃ i s, t.slots[i]? = some s ∧ s.value = none ∧
      (t.insert a).1 = ⟨i, s.gen⟩ ∧
      (t.insert a).2.slots = t.slots.set i ⟨s.gen, some a⟩) := by
  cases hfl : t.freeList with
  | nil => left; simp [HandleTable.insert, hfl]
  | cons i rest =>
    cases hs : t.slots[i]? with
    | none => left; simp [HandleTable.insert, hfl, hs]
    | some s =>
      cases hv : s.value with
      | none =>
        right
        exact ⟨i, s, hs, hv, by simp [HandleTable.insert, hfl, hs, hv],
          by simp [HandleTable.insert, hfl, hs, hv]⟩
      | some b => left; simp [HandleTable.insert, hfl, hs, hv]

/-- The handle returned by `insert` indexes the inserted element. -/
theorem get_insert_self {α : Type} (t : HandleTable α) (a : α) :
    (t.insert a).2.get (t.insert a).1 = some a := by
  rcases insert_spec t a with ⟨h1, h2⟩ | ⟨i, s, hs, hv, h1, h2⟩
  · unfold HandleTable.get
    rw [h1, h2]
    simp [List.getElem?_concat_length]
  · have hlen : i < t.slots.length := by
      by_contra hge
      rw [List.getElem?_eq_none (Nat.le_of_not_lt hge)] at hs
      exact Option.noConfusion hs
    unfold HandleTable.get
    rw [h1, h2]
    simp [List.getElem?_set_eq_of_lt _ hlen]

/-- A freshly inserted handle occupies a different slot index from any
handle that is currently live. -/
theorem insert_fresh_idx {α : Type} {t : HandleTable α} {h : Handle} {a : α}
    (hget : t.get h = some a) (b : α) : ((t.insert b).1).idx ≠ h.idx := by
  obtain ⟨s, hs, hg, hv⟩ := get_eq_some hget
  have hlen : h.idx < t.slots.length := by
    by_contra hge
    rw [List.getElem?_eq_none (Nat.le_of_not_lt hge)] at hs
    exact Option.noConfusion hs
  rcases insert_spec t b with ⟨h1, _⟩ | ⟨i, s2, hs2, hv2, h1, _⟩
  · rw [h1]
    exact Nat.ne_of_gt hlen
  · rw [h1]
    intro hih
    simp only at hih
    subst hih
    have : s2 = s := Option.some.inj (hs2 ▸ hs)
    subst this
    rw [hv] at hv2
    exact Option.noConfusion hv2

/-- A live handle survives the lookup after `setByIdx` on its own
slot, seeing the new occupant. -/
theorem get_setByIdx_self {α : Type} {t : HandleTable α} {h : Handle} {a : α}
    (hget : t.get h = some a) (b : α) :
    (t.setByIdx h.idx b).get h = some b := by
  obtain ⟨s, hs, hg, _⟩ := get_eq_some hget
  have hlen : h.idx < t.slots.length := by
    by_contra hge
    rw [List.getElem?_eq_none (Nat.le_of_not_lt hge)] at hs
    exact Option.noConfusion hs
  simp only [HandleTable.setByIdx, hs]
  unfold HandleTable.get
  simp [List.getElem?_set_eq_of_lt _ hlen, hg]

theorem getByIdx_of_get {α : Type} {t : HandleTable α} {h : Handle} {a : α}
    (hget : t.get h = some a) : t.getByIdx h.idx = some a := by
  obtain ⟨s, hs, _, hv⟩ := get_eq_some hget
  simp [HandleTable.getByIdx, hs, hv]

theorem getByIdx_setByIdx_self {α : Type} {t : HandleTable α} {i : Nat}
    {a : α} (hget : t.getByIdx i = some a) (b : α) :
    (t.setByIdx i b).getByIdx i = some b := by
  unfold HandleTable.getByIdx at hget
  cases hs : t.slots[i]? with
  | none => rw [hs] at hget; exact Option.noConfusion hget
  | some s =>
    have hlen : i < t.slots.length := by
      by_contra hge
      rw [List.getElem?_eq_none (Nat.le_of_not_lt hge)] at hs
      exact Option.noConfusion hs
    simp only [HandleTable.setByIdx, hs]
    simp [HandleTable.getByIdx, List.getElem?_set_eq_of_lt _ hlen]

/-- Removing one handle does not disturb slots at other indices. -/
theorem getElem?_after_remove_ne {α : Type} {t : HandleTable α}
    {h : Handle} {a : α} {t2 : HandleTable α}
    (hrem : t.remove h = some (a, t2)) {i : Nat} (hne : h.idx ≠ i) :
    t2.slots[i]? = t.slots[i]? := by
  obtain ⟨s, _, _, _, hslots⟩ := remove_eq_some hrem
  rw [hslots]
  exact List.getElem?_set_ne hne

theorem get_after_remove_ne {α : Type} {t : HandleTable α}
    {h h2 : Handle} {a : α} {t2 : HandleTable α}
    (hrem : t.remove h = some (a, t2)) (hne : h.idx ≠ h2.idx) :
    t2.get h2 = t.get h2 := by
  unfold HandleTable.get
  rw [getElem?_after_remove_ne hrem hne]

/-! ## Claim C6: dropping a Listener -/

/-- Claim C6: dropping a `Listener` removes its observer entry from
the handle table — afterwards its handle no longer resolves — and
deregisters the listening socket from the reactor, for every listener
and every event-loop state (in particular regardless of whether an
accept was in flight). -/
theorem claim_c6 (st : LoopState) (l : Listener) :
    (Listener.drop st l).observers.get l.handle = none ∧
    ∀ r ∈ (Listener.drop st l).registrations, r.fd ≠ l.fd := by
  constructor
  · cases hrem : st.observers.remove l.handle with
    | none =>
      simp only [Listener.drop, hrem, Reactor.deregister]
      exact get_eq_none_of_remove_none hrem
    | some p =>
      obtain ⟨a, t2⟩ := p
      simp only [Listener.drop, hrem, Reactor.deregister]
      exact get_eq_none_of_stale (stale_after_remove hrem)
  · intro r hr
    simp only [Listener.drop, Reactor.deregister] at hr
    have := (List.mem_filter.mp hr).2
    simpa using this

/-! ## Claim C8: Listener::bind arms readable-only, edge-triggered -/

/-- Claim C8: every successful `Listener::bind` registers the
listening descriptor with exactly one new reactor registration, whose
interest set contains only the readable direction (`readable = true`,
`writable = false`) in edge-triggered mode, under the handle's token;
a listener never arms writable interest. -/
theorem claim_c8 (st : LoopState) (br : Except IoError Nat)
    (regErr : Option IoError) (l : Listener) (st2 : LoopState)
    (hok : Listener.bind st br regErr = .ok (l, st2)) :
    st2.registrations =
      st.registrations ++ [⟨l.fd, l.handle.val, true, false, true⟩] := by
  cases br with
  | error e => simp [Listener.bind] at hok
  | ok fd =>
    cases regErr with
    | some e => simp [Listener.bind, Reactor.register] at hok
    | none =>
      simp only [Listener.bind, Reactor.register, FdObserver.new,
        Except.ok.injEq, Prod.mk.injEq] at hok
      obtain ⟨hl, hst⟩ := hok
      rw [← hst, ← hl]

def emptyLoop : LoopState := ⟨HandleTable.empty, []⟩

/-- Witness for C8: binding on a fresh loop state yields exactly one
readable-only edge-triggered registration. -/
theorem claim_c8_witness :
    (⟨⟨[⟨0, some FdObserver.fresh⟩], []⟩,
      [⟨3, 0, true, false, true⟩]⟩ : LoopState).registrations =
      emptyLoop.registrations ++ [⟨3, (⟨0, 0⟩ : Handle).val, true, false, true⟩] :=
  claim_c8 emptyLoop (.ok 3) none ⟨3, ⟨0, 0⟩⟩
    ⟨⟨[⟨0, some FdObserver.fresh⟩], []⟩, [⟨3, 0, true, false, true⟩]⟩ rfl

/-! ## Claims C4 and C5: the accept retry loop -/

/-- A trace is gated when every retry of the accept attempt is
separated from the previous attempt by an `awaitReadable` suspension:
no two attempts happen back-to-back. -/
def gatedB : List AcceptStep → Bool
  | [] => true
  | [AcceptStep.attempt] => true
  | AcceptStep.attempt :: AcceptStep.awaitReadable :: rest => gatedB rest
  | _ => false

/-- Claim C4: `Listener::accept` performs a non-blocking accept
attempt; when the attempt reports no pending connection the promise is
chained behind the observer's `when_becomes_readable` promise and only
then retries, so (i) every trace is gated — each retry is preceded by
a readiness suspension, never an immediate re-attempt; (ii) the loop
keeps waiting while attempts report would-block; (iii) after `k`
would-block rounds a successful attempt resolves with the accepted
stream, having made exactly `k` gated retries; (iv) after `k`
would-block rounds a failing attempt rejects the promise. -/
theorem claim_c4 (st : LoopState) (l : Listener) :
    (∀ env, gatedB (Listener.accept st l env).1 = true) ∧
    (∀ k, (Listener.accept st l
        (List.replicate k (.wouldBlock (.ok ())))).2.1 = .pending) ∧
    (∀ k fd, ∃ h st2,
      Listener.accept st l
          (List.replicate k (.wouldBlock (.ok ())) ++ [.conn fd none]) =
        ((List.replicate k [AcceptStep.attempt, .awaitReadable]).flatten ++
          [.attempt], .ok l ⟨fd, h⟩, st2)) ∧
    (∀ k e,
      Listener.accept st l
          (List.replicate k (.wouldBlock (.ok ())) ++ [.fatal e]) =
        ((List.replicate k [AcceptStep.attempt, .awaitReadable]).flatten ++
          [.attempt], .err ⟨l, e⟩, st)) := by
  refine ⟨?_, ?_, ?_, ?_⟩
  · intro env
    induction env with
    | nil => simp [Listener.accept, Listener.acceptInternal, gatedB]
    | cons a rest ih =>
      cases a with
      | fatal e => simp [Listener.accept, Listener.acceptInternal, gatedB]
      | conn fd regErr =>
        cases regErr with
        | none =>
          simp [Listener.accept, Listener.acceptInternal, registerNewHandle,
            Reactor.register, FdObserver.new, gatedB]
        | some e =>
          simp [Listener.accept, Listener.acceptInternal, registerNewHandle,
            Reactor.register, FdObserver.new, gatedB]
      | wouldBlock r =>
        cases r with
        | error e => simp [Listener.accept, Listener.acceptInternal, gatedB]
        | ok u =>
          simpa [Listener.accept, Listener.acceptInternal, gatedB] using ih
  · intro k
    induction k with
    | zero => simp [Listener.accept, Listener.acceptInternal]
    | succ k ih =>
      simpa [Listener.accept, Listener.acceptInternal,
        List.replicate_succ] using ih
  · intro k fd
    induction k with
    | zero =>
      refine ⟨(st.observers.insert FdObserver.fresh).1,
        ⟨(st.observers.insert FdObserver.fresh).2,
         st.registrations ++
           [⟨fd, (st.observers.insert FdObserver.fresh).1.val,
             true, true, true⟩]⟩, ?_⟩
      simp [Listener.accept, Listener.acceptInternal, registerNewHandle,
        Reactor.register, FdObserver.new]
    | succ k ih =>
      obtain ⟨h, st2, ih⟩ := ih
      refine ⟨h, st2, ?_⟩
      simp only [Listener.accept] at ih ⊢
      simp [List.replicate_succ, Listener.acceptInternal, ih]
  · intro k e
    induction k with
    | zero => simp [Listener.accept, Listener.acceptInternal]
    | succ k ih =>
      simp only [Listener.accept] at ih ⊢
      simp [List.replicate_succ, Listener.acceptInternal, ih]

/-- Claim C5: every failure branch of the accept loop returns
ownership of the `Listener` alongside the error — the error value
`Error::new(self, e)` always carries the listener that entered the
operation. -/
theorem claim_c5 (st : LoopState) (l : Listener) (env : List AcceptAttempt)
    (er : GjError Listener)
    (herr : (Listener.accept st l env).2.1 = .err er) :
    er.state = l := by
  induction env with
  | nil => simp [Listener.accept, Listener.acceptInternal] at herr
  | cons a rest ih =>
    cases a with
    | fatal e =>
      simp [Listener.accept, Listener.acceptInternal] at herr
      rw [← herr]
    | conn fd regErr =>
      cases regErr with
      | none =>
        simp [Listener.accept, Listener.acceptInternal, registerNewHandle,
          Reactor.register, FdObserver.new] at herr
      | some e2 =>
        simp [Listener.accept, Listener.acceptInternal, registerNewHandle,
          Reactor.register, FdObserver.new] at herr
        rw [← herr]
    | wouldBlock r =>
      cases r with
      | error e =>
        simp [Listener.accept, Listener.acceptInternal] at herr
        rw [← herr]
      | ok u =>
        apply ih
        simpa [Listener.accept, Listener.acceptInternal] using herr

/-- Witness for C5: a fatal accept error on a concrete listener
returns that listener inside the error value. -/
theorem claim_c5_witness :
    (GjError.mk (⟨1, ⟨0, 0⟩⟩ : Listener) ⟨5⟩).state = (⟨1, ⟨0, 0⟩⟩ : Listener) :=
  claim_c5 emptyLoop ⟨1, ⟨0, 0⟩⟩ [.fatal ⟨5⟩] ⟨⟨1, ⟨0, 0⟩⟩, ⟨5⟩⟩ rfl

/-! ## Claim C10: from_raw_fd sets O_NONBLOCK before registering -/

theorem fromRawFd_ok {st : SysState} {fd : Nat} {fe re : Option IoError}
    {s : Stream} {st2 : SysState} {tr : List SysCall}
    (hok : Stream.fromRawFd st fd fe re = (.ok (s, st2), tr)) :
    s.fd = fd ∧ st2.nonblocking = fd :: st.nonblocking ∧
    tr = [.fcntlSetNonblock fd, .register fd] := by
  cases fe with
  | some e => simp [Stream.fromRawFd] at hok
  | none =>
    cases re with
    | some e =>
      simp [Stream.fromRawFd, registerNewHandle, Reactor.register,
        FdObserver.new] at hok
    | none =>
      simp only [Stream.fromRawFd, registerNewHandle, Reactor.register,
        FdObserver.new, Prod.mk.injEq, Except.ok.injEq] at hok
      obtain ⟨⟨hs, hst⟩, htr⟩ := hok
      refine ⟨by rw [← hs], ?_, htr.symm⟩
      rw [← hst]

/-- Claim C10: every `Stream` built through `Stream::from_raw_fd` has
`O_NONBLOCK` set on its descriptor before the descriptor is registered
with the event loop — the recorded system-call trace always begins
with the fcntl, with the registration strictly after it — and on
success the descriptor is non-blocking in the final state; `new_pair`
builds both of its streams through `from_raw_fd`, so both ends are
non-blocking from the moment they exist. -/
theorem claim_c10 :
    (∀ (st : SysState) (fd : Nat) (fe re : Option IoError),
      (Stream.fromRawFd st fd fe re).2 = [.fcntlSetNonblock fd] ∨
      (Stream.fromRawFd st fd fe re).2 =
        [.fcntlSetNonblock fd, .register fd]) ∧
    (∀ (st : SysState) (fd : Nat) (fe re : Option IoError)
        (s : Stream) (st2 : SysState) (tr : List SysCall),
      Stream.fromRawFd st fd fe re = (.ok (s, st2), tr) →
      s.fd = fd ∧ s.fd ∈ st2.nonblocking ∧
      tr = [.fcntlSetNonblock fd, .register fd]) ∧
    (∀ (st : SysState) (spErr fe1 re1 fe2 re2 : Option IoError)
        (s1 s2 : Stream) (st2 : SysState) (tr : List SysCall),
      Stream.newPair st spErr fe1 re1 fe2 re2 = (.ok (s1, s2, st2), tr) →
      s1.fd ∈ st2.nonblocking ∧ s2.fd ∈ st2.nonblocking) := by
  refine ⟨?_, ?_, ?_⟩
  · intro st fd fe re
    cases fe with
    | some e => left; simp [Stream.fromRawFd]
    | none =>
      cases re with
      | some e =>
        right
        simp [Stream.fromRawFd, registerNewHandle, Reactor.register,
          FdObserver.new]
      | none =>
        right
        simp [Stream.fromRawFd, registerNewHandle, Reactor.register,
          FdObserver.new]
  · intro st fd fe re s st2 tr hok
    obtain ⟨hs, hnb, htr⟩ := fromRawFd_ok hok
    exact ⟨hs, by rw [hnb, hs]; exact List.mem_cons_self _ _, htr⟩
  · intro st spErr fe1 re1 fe2 re2 s1 s2 st2 tr hok
    cases spErr with
    | some e => simp [Stream.newPair] at hok
    | none =>
      simp only [Stream.newPair] at hok
      split at hok
      case h_1 e tr1 heq => simp at hok
      case h_2 sA stA tr1 heq =>
        split at hok
        case h_1 e tr2 heq2 => simp at hok
        case h_2 sB stB tr2 heq2 =>
          simp only [Prod.mk.injEq, Except.ok.injEq] at hok
          obtain ⟨⟨hsA, hsB, hstB⟩, _⟩ := hok
          obtain ⟨hfdA, hnbA, _⟩ := fromRawFd_ok heq
          obtain ⟨hfdB, hnbB, _⟩ := fromRawFd_ok heq2
          subst hsA hsB hstB
          constructor
          · rw [hnbB, hnbA, hfdA]
            exact List.mem_cons_of_mem _ (List.mem_cons_self _ _)
          · rw [hnbB, hfdB]
            exact List.mem_cons_self _ _

def emptySys : SysState := ⟨emptyLoop, 0, []⟩

/-- Witness for C10: building a stream from raw descriptor 5 on a
fresh state sets O_NONBLOCK first and registers second, and the
descriptor ends up non-blocking. -/
theorem claim_c10_witness :
    ∃ s st2 tr, Stream.fromRawFd emptySys 5 none none = (.ok (s, st2), tr) ∧
      s.fd = 5 ∧ s.fd ∈ st2.nonblocking ∧
      tr = [SysCall.fcntlSetNonblock 5, SysCall.register 5] :=
  ⟨_, _, _, rfl, claim_c10.2.1 emptySys 5 none none _ _ _ rfl⟩

/-! ## Claim C3: the reactor's run-once pass -/

/-- Claim C3: `run_once` performs one poll pass: an error returned by
the underlying poll call is returned to the caller of `run_once`
unchanged (never swallowed), and for a reported event the reactor
looks up the observer by the event's handle token and fulfills the
matching pending waiter, clearing it. -/
theorem claim_c3 (st : LoopState) (e : IoError) (ev : Event) (o : FdObserver)
    (hobs : st.observers.getByIdx ev.token = some o)
    (harm : o.readWaiter = true) (hread : ev.readable = true)
    (hwrit : ev.writable = false) :
    Reactor.runOnce st (.error e) = .error e ∧
    ∃ st2, Reactor.runOnce st (.ok [ev]) =
        .ok (st2, [(ev.token, Dir.read)]) ∧
      st2.observers.getByIdx ev.token = some { o with readWaiter := false } := by
  refine ⟨rfl, ?_⟩
  refine ⟨{ st with observers :=
      st.observers.setByIdx ev.token { o with readWaiter := false } }, ?_, ?_⟩
  · simp [Reactor.runOnce, deliverEvent, hobs, harm, hread, hwrit]
  · exact getByIdx_setByIdx_self hobs _

/-- A loop state with one observer in slot 0 whose read-waiter is
armed, used to witness C3. -/
def armedLoop : LoopState :=
  ⟨⟨[⟨0, some ⟨true, false, false, false⟩⟩], []⟩, [⟨4, 0, true, true, true⟩]⟩

/-- Witness for C3: on the armed state, a poll error propagates and a
readable event for token 0 fulfills the armed read-waiter. -/
theorem claim_c3_witness :
    Reactor.runOnce armedLoop (.error ⟨7⟩) = .error ⟨7⟩ ∧
    ∃ st2, Reactor.runOnce armedLoop (.ok [⟨0, true, false⟩]) =
        .ok (st2, [(0, Dir.read)]) ∧
      st2.observers.getByIdx 0 =
        some { (⟨true, false, false, false⟩ : FdObserver) with
                 readWaiter := false } :=
  claim_c3 armedLoop ⟨7⟩ ⟨0, true, false⟩ ⟨true, false, false, false⟩
    rfl rfl rfl rfl

/-! ## Claim C2: try_clone independence from the original's drop -/

theorem get_drop_ne {st : SysState} {s : Stream} {h2 : Handle}
    (hne : s.handle.idx ≠ h2.idx) :
    (Stream.drop st s).loopSt.observers.get h2 =
      st.loopSt.observers.get h2 := by
  cases hrem : st.loopSt.observers.remove s.handle with
  | none => simp only [Stream.drop, hrem, Reactor.deregister]
  | some p =>
    obtain ⟨a, t2⟩ := p
    simp only [Stream.drop, hrem, Reactor.deregister]
    exact get_after_remove_ne hrem hne

theorem drop_registrations (st : SysState) (s : Stream) :
    (Stream.drop st s).loopSt.registrations =
      st.loopSt.registrations.filter (fun r => r.fd != s.fd) := by
  cases hrem : st.loopSt.observers.remove s.handle with
  | none => simp [Stream.drop, hrem, Reactor.deregister]
  | some p => simp [Stream.drop, hrem, Reactor.deregister]

theorem armRead_registrations (st : LoopState) (h : Handle) :
    (armRead st h).registrations = st.registrations := by
  unfold armRead
  split <;> rfl

theorem tryClone_ok {st : SysState} {s s2 : Stream} {st2 : SysState}
    (hclone : Stream.tryClone st s none none = .ok (s2, st2)) :
    s2 = ⟨st.nextFd, (st.loopSt.observers.insert FdObserver.fresh).1⟩ ∧
    st2.loopSt.observers = (st.loopSt.observers.insert FdObserver.fresh).2 ∧
    st2.loopSt.registrations = st.loopSt.registrations ++
      [⟨st.nextFd, (st.loopSt.observers.insert FdObserver.fresh).1.val,
        true, true, true⟩] := by
  simp only [Stream.tryClone, registerNewHandle, Reactor.register,
    FdObserver.new, Except.ok.injEq, Prod.mk.injEq] at hclone
  obtain ⟨hs2, hst2⟩ := hclone
  refine ⟨hs2.symm, ?_, ?_⟩ <;> rw [← hst2]

/-- The C2 regression scenario, from the post-clone state `st2`: arm a
read-waiter on the clone `s2`, then drop the original stream `s`. -/
def cloneArmDrop (st2 : SysState) (s s2 : Stream) : SysState :=
  Stream.drop { st2 with loopSt := armRead st2.loopSt s2.handle } s

/-- Claim C2: `try_clone` allocates a fresh, independent handle and
observer registration (a different slot and a different descriptor
from the original); dropping the original afterwards removes only the
original's own handle and registration, so a read-waiter armed on the
duplicate survives the drop — the duplicate's handle still resolves,
its registration is still armed, and a subsequent readiness event for
the duplicate's token fulfills its pending read. -/
theorem claim_c2 (st : SysState) (s : Stream) (o : FdObserver)
    (hlive : st.loopSt.observers.get s.handle = some o)
    (hfd : s.fd < st.nextFd) (s2 : Stream) (st2 : SysState)
    (hclone : Stream.tryClone st s none none = .ok (s2, st2)) :
    s2.handle ≠ s.handle ∧ s2.fd ≠ s.fd ∧
    (cloneArmDrop st2 s s2).loopSt.observers.get s2.handle =
      some { FdObserver.fresh with readWaiter := true } ∧
    (∃ r ∈ (cloneArmDrop st2 s s2).loopSt.registrations, r.fd = s2.fd) ∧
    ∃ st5, Reactor.runOnce (cloneArmDrop st2 s s2).loopSt
        (.ok [⟨s2.handle.val, true, false⟩]) =
      .ok (st5, [(s2.handle.val, Dir.read)]) := by
  obtain ⟨hs2, hobs2, hreg2⟩ := tryClone_ok hclone
  have hidx : s2.handle.idx ≠ s.handle.idx := by
    rw [hs2]
    exact insert_fresh_idx hlive FdObserver.fresh
  have hget2 : st2.loopSt.observers.get s2.handle = some FdObserver.fresh := by
    rw [hobs2, hs2]
    exact get_insert_self st.loopSt.observers FdObserver.fresh
  have harm : armRead st2.loopSt s2.handle =
      { st2.loopSt with
        observers := (st2.loopSt.observers.setByIdx s2.handle.idx
          { FdObserver.fresh with readWaiter := true }) } := by
    simp only [armRead, hget2]
  have hget4 : (cloneArmDrop st2 s s2).loopSt.observers.get s2.handle =
      some { FdObserver.fresh with readWaiter := true } := by
    unfold cloneArmDrop
    rw [get_drop_ne (Ne.symm hidx)]
    show (armRead st2.loopSt s2.handle).observers.get s2.handle = _
    rw [harm]
    exact get_setByIdx_self hget2 _
  refine ⟨fun heq => hidx (congrArg Handle.idx heq), ?_, hget4, ?_, ?_⟩
  · rw [hs2]
    exact Nat.ne_of_gt hfd
  · refine ⟨⟨st.nextFd,
      (st.loopSt.observers.insert FdObserver.fresh).1.val,
      true, true, true⟩, ?_, by rw [hs2]⟩
    unfold cloneArmDrop
    rw [drop_registrations]
    refine List.mem_filter.mpr ⟨?_, ?_⟩
    · show _ ∈ (armRead st2.loopSt s2.handle).registrations
      rw [armRead_registrations, hreg2]
      exact List.mem_append_right _ (List.mem_cons_self _ _)
    · simpa using Nat.ne_of_gt hfd
  · have hbyIdx : (cloneArmDrop st2 s s2).loopSt.observers.getByIdx
        s2.handle.idx = some { FdObserver.fresh with readWaiter := true } :=
      getByIdx_of_get hget4
    refine ⟨{ (cloneArmDrop st2 s s2).loopSt with
      observers := ((cloneArmDrop st2 s s2).loopSt.observers.setByIdx
        s2.handle.idx { FdObserver.fresh with readWaiter := false }) }, ?_⟩
    simp [Reactor.runOnce, deliverEvent, Handle.val, hbyIdx]

/-- A one-stream state used to witness C2: descriptor 1 lives in slot
0 with a registration; the next fresh descriptor is 2. -/
def cSt : SysState :=
  ⟨⟨⟨[⟨0, some FdObserver.fresh⟩], []⟩, [⟨1, 0, true, true, true⟩]⟩, 2, [1]⟩

def cS : Stream := ⟨1, ⟨0, 0⟩⟩

/-- Witness for C2: cloning the concrete stream, arming the clone and
dropping the original leaves the clone's armed observer reachable. -/
theorem claim_c2_witness :
    ∃ s2 st2, Stream.tryClone cSt cS none none = .ok (s2, st2) ∧
      s2.handle ≠ cS.handle ∧
      (cloneArmDrop st2 cS s2).loopSt.observers.get s2.handle =
        some { FdObserver.fresh with readWaiter := true } :=
  ⟨_, _, rfl, (claim_c2 cSt cS FdObserver.fresh rfl (by decide) _ _ rfl).1,
    (claim_c2 cSt cS FdObserver.fresh rfl (by decide) _ _ rfl).2.2.1⟩

/-! ## Claim C9: the echo scenario -/

/-- Modelled from the spec (4.6, 5): a connected stream pair as two
in-flight byte queues (the generic stream read/write module is not in
the snapshot).  `write` appends the whole buffer — it retries on
would-block until fully flushed — and `read n` removes and returns the
first `n` bytes once at least `n` have accumulated. -/
structure ConnPair where
  clientToServer : List Nat
  serverToClient : List Nat
deriving DecidableEq, Repr

def writeClient (p : ConnPair) (buf : List Nat) : ConnPair :=
  { p with clientToServer := p.clientToServer ++ buf }

def writeServer (p : ConnPair) (buf : List Nat) : ConnPair :=
  { p with serverToClient := p.serverToClient ++ buf }

def readServer (p : ConnPair) (n : Nat) : Option (List Nat × ConnPair) :=
  if n ≤ p.clientToServer.length then
    some (p.clientToServer.take n,
      { p with clientToServer := p.clientToServer.drop n })
  else none

def readClient (p : ConnPair) (n : Nat) : Option (List Nat × ConnPair) :=
  if n ≤ p.serverToClient.length then
    some (p.serverToClient.take n,
      { p with serverToClient := p.serverToClient.drop n })
  else none

/-- The byte increment the echo server applies (`*x += 1` on `u8`,
wrapping at 256). -/
def incByte (x : Nat) : Nat := (x + 1) % 256

/-- Embedding of the echo test (src/tests/io.rs, lines 49-76): the
client writes `[7,6,5,4,3,2]`; the server reads 6 bytes, increments
each byte by one, and writes them back; the client reads 6 bytes. -/
def echoScenario : Option (List Nat) := do
  let p0 : ConnPair := ⟨[], []⟩
  let p1 := writeClient p0 [7, 6, 5, 4, 3, 2]
  let (v, p2) ← readServer p1 6
  let p3 := writeServer p2 (v.map incByte)
  let (r, _) ← readClient p3 6
  pure r

/-- Claim C9: in the echo scenario — client writes `[7,6,5,4,3,2]`,
server reads 6 bytes, increments each byte, writes them back — the
client's final read of 6 bytes yields exactly `[8,7,6,5,4,3]`. -/
theorem claim_c9 : echoScenario = some [8, 7, 6, 5, 4, 3] := by decide

/-! ## Claim C7: join_all (Promise::all)

Modelled from the spec (4.4): the promise core is not part of the
snapshot (`Promise::all` appears only in the example program).  An
input promise is abstracted by the time at which it reaches its
terminal state and that terminal state; the combinator is an event
fold that delivers each input's terminal state in time order (input
order within one instant). -/

/-- An input to `join_all`: it reaches terminal state `result` at
instant `time`. -/
structure PInput (α ε : Type) where
  time : Nat
  result : Except ε α

/-- The combinator's record of one input: still pending, resolved, or
cancelled by an earlier failure of a sibling. -/
inductive JCell (α : Type) where
  | pending
  | done (a : α)
  | cancelled
deriving DecidableEq, Repr

/-- The combined promise's state. -/
inductive JOut (α ε : Type) where
  | pending
  | ok (vs : List α)
  | err (e : ε)
deriving DecidableEq, Repr

structure JState (α ε : Type) where
  cells : List (JCell α)
  out : JOut α ε

/-- Collect the values of the cells when every input has resolved. -/
def collectDone {α : Type} : List (JCell α) → Option (List α)
  | [] => some []
  | JCell.done a :: rest => (collectDone rest).map (fun vs => a :: vs)
  | JCell.pending :: _ => none
  | JCell.cancelled :: _ => none

/-- Cancel a still-pending input; terminal cells are left alone. -/
def cancelPending {α : Type} : JCell α → JCell α
  | JCell.pending => JCell.cancelled
  | c => c

/-- Modelled from the spec (4.4): deliver the terminal state of input
`i`.  If the combined promise has already failed, the input was
cancelled and nothing is delivered.  A resolving input marks its cell
done and, once every input is done, resolves the combined promise with
the results in input order.  A failing input fails the combined
promise with that failure and cancels every still-pending input. -/
def deliverOne {α ε : Type} (ps : List (PInput α ε)) (st : JState α ε)
    (i : Nat) : JState α ε :=
  match st.out with
  | .err _ => st
  | _ =>
    match ps[i]?, st.cells[i]? with
    | some p, some JCell.pending =>
      match p.result with
      | .ok a =>
        { cells := st.cells.set i (JCell.done a),
          out := match collectDone (st.cells.set i (JCell.done a)) with
                 | some vs => .ok vs
                 | none => st.out }
      | .error e =>
        { cells := st.cells.map cancelPending,
          out := .err e }
    | _, _ => st

/-- The delivery schedule: input indices in time order, input order
within one instant, for all instants below `tmax`. -/
def scheduleIdx {α ε : Type} (ps : List (PInput α ε)) (tmax : Nat) :
    List Nat :=
  (List.range tmax).flatMap (fun t =>
    (List.range ps.length).filter (fun i =>
      match ps[i]? with
      | some p => p.time == t
      | none => false))

/-- The initial state: every input pending; an empty input collection
resolves immediately with the empty list. -/
def initJState {α ε : Type} (ps : List (PInput α ε)) : JState α ε :=
  let cells : List (JCell α) := List.replicate ps.length JCell.pending
  { cells := cells,
    out := match collectDone cells with
           | some vs => .ok vs
           | none => .pending }

/-- Modelled from the spec (4.4): `join_all` — run the combinator over
all deliveries up to instant `tmax`. -/
def joinAll {α ε : Type} (ps : List (PInput α ε)) (tmax : Nat) :
    JState α ε :=
  (scheduleIdx ps tmax).foldl (deliverOne ps) (initJState ps)

/-- Invariant maintained by the join fold: cell count matches input
count; a done cell records its input's resolved value; a resolved
output lists exactly the cells, all done, in order; a failed output
has a failing source input and no cell left pending; while the output
is pending nothing was cancelled and not all inputs are done. -/
def JInv {α ε : Type} (ps : List (PInput α ε)) (st : JState α ε) : Prop :=
  st.cells.length = ps.length ∧
  (∀ (i : Nat) (a : α), st.cells[i]? = some (JCell.done a) →
    ∃ p : PInput α ε, ps[i]? = some p ∧ p.result = Except.ok a) ∧
  (∀ vs, st.out = JOut.ok vs → st.cells = vs.map JCell.done) ∧
  (∀ e, st.out = JOut.err e →
    (∃ j : Nat, ∃ q : PInput α ε, ps[j]? = some q ∧ q.result = Except.error e) ∧
    ∀ c ∈ st.cells, c ≠ JCell.pending) ∧
  (st.out = JOut.pending → (∀ c ∈ st.cells, c ≠ JCell.cancelled) ∧
    collectDone st.cells = none)

theorem collectDone_eq_some {α : Type} :
    ∀ {cs : List (JCell α)} {vs : List α}, collectDone cs = some vs →
      cs = vs.map JCell.done := by
  intro cs
  induction cs with
  | nil =>
    intro vs h
    simp only [collectDone, Option.some.injEq] at h
    rw [← h]
    rfl
  | cons c rest ih =>
    intro vs h
    cases c with
    | pending => simp [collectDone] at h
    | cancelled => simp [collectDone] at h
    | done a =>
      simp only [collectDone] at h
      cases hrest : collectDone rest with
      | none => rw [hrest] at h; simp at h
      | some ws =>
        rw [hrest] at h
        have h2 : a :: ws = vs := by simpa using h
        rw [← h2, List.map_cons, ih hrest]

theorem collectDone_of_all_done {α : Type} :
    ∀ {cs : List (JCell α)}, (∀ c ∈ cs, ∃ a, c = JCell.done a) →
      ∃ vs, collectDone cs = some vs := by
  intro cs
  induction cs with
  | nil => intro _; exact ⟨[], rfl⟩
  | cons c rest ih =>
    intro h
    obtain ⟨a, ha⟩ := h c (List.mem_cons_self _ _)
    subst ha
    obtain ⟨vs, hvs⟩ := ih (fun c hc => h c (List.mem_cons_of_mem _ hc))
    exact ⟨a :: vs, by simp [collectDone, hvs]⟩

theorem JInv_init {α ε : Type} (ps : List (PInput α ε)) :
    JInv ps (initJState ps) := by
  unfold initJState
  cases hc : collectDone (List.replicate ps.length (JCell.pending (α := α))) with
  | none =>
    simp only [hc]
    refine ⟨List.length_replicate _ _, ?_, ?_, ?_, ?_⟩
    · intro i a h
      rw [List.getElem?_replicate] at h
      by_cases hi : i < ps.length
      · rw [if_pos hi] at h
        exact JCell.noConfusion (Option.some.inj h)
      · rw [if_neg hi] at h
        exact Option.noConfusion h
    · intro vs h; exact JOut.noConfusion h
    · intro e h; exact JOut.noConfusion h
    · intro _
      refine ⟨?_, hc⟩
      intro c hcm
      rw [List.eq_of_mem_replicate hcm]
      exact fun h => JCell.noConfusion h
  | some vs =>
    have hmap := collectDone_eq_some hc
    have hn : ps.length = 0 := by
      by_contra hne
      cases hps : ps.length with
      | zero => exact hne hps
      | succ m =>
        rw [hps] at hmap
        cases vs with
        | nil => simp [List.replicate_succ] at hmap
        | cons v vrest => simp [List.replicate_succ] at hmap
    have hcells : List.replicate ps.length (JCell.pending (α := α)) = [] := by
      rw [hn]; rfl
    have hvs : vs = [] := by
      rw [hcells] at hmap
      exact (List.map_eq_nil_iff.mp hmap.symm)
    simp only [hc]
    refine ⟨by rw [List.length_replicate, hn], ?_, ?_, ?_, ?_⟩
    · intro i a h
      rw [hcells] at h
      simp at h
    · intro ws h
      rw [hcells, hvs]
      have : ws = vs := (JOut.ok.inj h).symm
      rw [this, hvs]
      rfl
    · intro e h; exact JOut.noConfusion h
    · intro h; exact JOut.noConfusion h

theorem deliverOne_errAbsorb {α ε : Type} {ps : List (PInput α ε)}
    {st : JState α ε} {e : ε} (h : st.out = JOut.err e) (i : Nat) :
    deliverOne ps st i = st := by
  unfold deliverOne
  simp [h]

theorem foldl_errAbsorb {α ε : Type} {ps : List (PInput α ε)}
    {st : JState α ε} {e : ε} (h : st.out = JOut.err e) :
    ∀ l : List Nat, l.foldl (deliverOne ps) st = st := by
  intro l
  induction l with
  | nil => rfl
  | cons i rest ih =>
    rw [List.foldl_cons, deliverOne_errAbsorb h]
    exact ih

theorem lt_of_getElem?_eq_some {α : Type} {l : List α} {i : Nat} {a : α}
    (h : l[i]? = some a) : i < l.length := by
  by_contra hge
  rw [List.getElem?_eq_none (Nat.le_of_not_lt hge)] at h
  exact Option.noConfusion h

/-- Case analysis on one delivery: either nothing happens, or input
`i` resolves (marking its cell done and possibly resolving the whole
join), or input `i` fails (failing the join and cancelling all
still-pending cells). -/
theorem deliverOne_spec {α ε : Type} (ps : List (PInput α ε))
    (st : JState α ε) (i : Nat) :
    deliverOne ps st i = st ∨
    (∃ p : PInput α ε, ∃ a : α,
      ps[i]? = some p ∧ st.cells[i]? = some JCell.pending ∧
      p.result = Except.ok a ∧
      (st.out = JOut.pending ∨ ∃ vs, st.out = JOut.ok vs) ∧
      deliverOne ps st i =
        { cells := st.cells.set i (JCell.done a),
          out := match collectDone (st.cells.set i (JCell.done a)) with
                 | some vs => JOut.ok vs
                 | none => st.out }) ∨
    (∃ p : PInput α ε, ∃ e : ε,
      ps[i]? = some p ∧ st.cells[i]? = some JCell.pending ∧
      p.result = Except.error e ∧
      (st.out = JOut.pending ∨ ∃ vs, st.out = JOut.ok vs) ∧
      deliverOne ps st i =
        { cells := st.cells.map cancelPending, out := JOut.err e }) := by
  unfold deliverOne
  cases hout : st.out with
  | err e => left; rfl
  | pending =>
    cases hp : ps[i]? with
    | none => left; rfl
    | some p =>
      cases hc : st.cells[i]? with
      | none => left; rfl
      | some c =>
        cases c with
        | done a => left; rfl
        | cancelled => left; rfl
        | pending =>
          cases hres : p.result with
          | ok a =>
            right; left
            exact ⟨p, a, rfl, rfl, hres, Or.inl rfl, by simp [hres]⟩
          | error e =>
            right; right
            exact ⟨p, e, rfl, rfl, hres, Or.inl rfl, by simp [hres]⟩
  | ok vs =>
    cases hp : ps[i]? with
    | none => left; rfl
    | some p =>
      cases hc : st.cells[i]? with
      | none => left; rfl
      | some c =>
        cases c with
        | done a => left; rfl
        | cancelled => left; rfl
        | pending =>
          cases hres : p.result with
          | ok a =>
            right; left
            exact ⟨p, a, rfl, rfl, hres, Or.inr ⟨vs, rfl⟩, by simp [hres]⟩
          | error e =>
            right; right
            exact ⟨p, e, rfl, rfl, hres, Or.inr ⟨vs, rfl⟩, by simp [hres]⟩

theorem JInv_deliverOne {α ε : Type} {ps : List (PInput α ε)}
    {st : JState α ε} (hinv : JInv ps st) (i : Nat) :
    JInv ps (deliverOne ps st i) := by
  obtain ⟨hlen, hdone, hok, herr, hpend⟩ := hinv
  rcases deliverOne_spec ps st i with heq |
    ⟨p, a, hp, hc, hres, houts, heq⟩ | ⟨p, e, hp, hc, hres, houts, heq⟩
  · rw [heq]
    exact ⟨hlen, hdone, hok, herr, hpend⟩
  · -- input i resolves with value a
    have hilen : i < st.cells.length := lt_of_getElem?_eq_some hc
    -- out = ok is impossible here: all cells would already be done
    have hout : st.out = JOut.pending := by
      rcases houts with h | ⟨vs, h⟩
      · exact h
      · exfalso
        rw [hok vs h, List.getElem?_map] at hc
        cases hvi : vs[i]? with
        | none => rw [hvi] at hc; exact Option.noConfusion hc
        | some v =>
          rw [hvi] at hc
          exact JCell.noConfusion (Option.some.inj hc)
    rw [heq, hout]
    cases hcd : collectDone (st.cells.set i (JCell.done a)) with
    | some vs =>
      refine ⟨?_, ?_, ?_, ?_, ?_⟩
      · rw [List.length_set]; exact hlen
      · intro j b hj
        by_cases hij : i = j
        · subst hij
          rw [List.getElem?_set_eq_of_lt _ hilen] at hj
          have hab : a = b := JCell.done.inj (Option.some.inj hj)
          exact ⟨p, hp, by rw [hres, hab]⟩
        · rw [List.getElem?_set_ne hij] at hj
          exact hdone j b hj
      · intro ws hws
        have : vs = ws := JOut.ok.inj hws
        rw [← this]
        exact collectDone_eq_some hcd
      · intro e2 he2
        exact JOut.noConfusion he2
      · intro hctr
        exact JOut.noConfusion hctr
    | none =>
      refine ⟨?_, ?_, ?_, ?_, ?_⟩
      · rw [List.length_set]; exact hlen
      · intro j b hj
        by_cases hij : i = j
        · subst hij
          rw [List.getElem?_set_eq_of_lt _ hilen] at hj
          have hab : a = b := JCell.done.inj (Option.some.inj hj)
          exact ⟨p, hp, by rw [hres, hab]⟩
        · rw [List.getElem?_set_ne hij] at hj
          exact hdone j b hj
      · intro ws hws
        exact JOut.noConfusion hws
      · intro e2 he2
        exact JOut.noConfusion he2
      · intro _
        refine ⟨?_, hcd⟩
        intro c hcm
        rcases List.mem_or_eq_of_mem_set hcm with hmem | hceq
        · exact (hpend hout).1 c hmem
        · rw [hceq]
          exact fun h => JCell.noConfusion h
  · -- input i fails with error e
    rw [heq]
    refine ⟨?_, ?_, ?_, ?_, ?_⟩
    · rw [List.length_map]; exact hlen
    · intro j b hj
      rw [List.getElem?_map] at hj
      cases hcj : st.cells[j]? with
      | none => rw [hcj] at hj; exact Option.noConfusion hj
      | some c =>
        rw [hcj] at hj
        have hfc : cancelPending c = JCell.done b := Option.some.inj hj
        cases c with
        | pending => exact JCell.noConfusion hfc
        | cancelled => exact JCell.noConfusion hfc
        | done b2 =>
          have : b2 = b := JCell.done.inj hfc
          rw [← this]
          exact hdone j b2 hcj
    · intro ws hws
      exact JOut.noConfusion hws
    · intro e2 he2
      have : e = e2 := JOut.err.inj he2
      refine ⟨⟨i, p, hp, by rw [hres, this]⟩, ?_⟩
      intro c hcm
      obtain ⟨c0, _, hc0⟩ := List.mem_map.mp hcm
      rw [← hc0]
      cases c0 with
      | pending => exact fun h => JCell.noConfusion h
      | done b => exact fun h => JCell.noConfusion h
      | cancelled => exact fun h => JCell.noConfusion h
    · intro hctr
      exact JOut.noConfusion hctr

theorem JInv_foldl {α ε : Type} {ps : List (PInput α ε)} :
    ∀ (l : List Nat) (st : JState α ε), JInv ps st →
      JInv ps (l.foldl (deliverOne ps) st) := by
  intro l
  induction l with
  | nil => intro st h; exact h
  | cons i rest ih =>
    intro st h
    rw [List.foldl_cons]
    exact ih _ (JInv_deliverOne h i)

/-- A done cell stays done under any further delivery. -/
theorem done_stable {α ε : Type} {ps : List (PInput α ε)}
    {st : JState α ε} {j : Nat} {a : α}
    (hj : st.cells[j]? = some (JCell.done a)) (i : Nat) :
    (deliverOne ps st i).cells[j]? = some (JCell.done a) := by
  rcases deliverOne_spec ps st i with heq |
    ⟨p, b, hp, hc, hres, houts, heq⟩ | ⟨p, e, hp, hc, hres, houts, heq⟩
  · rw [heq]; exact hj
  · rw [heq]
    have hij : i ≠ j := by
      intro h
      subst h
      rw [hj] at hc
      exact JCell.noConfusion (Option.some.inj hc)
    show (st.cells.set i (JCell.done b))[j]? = some (JCell.done a)
    rw [List.getElem?_set_ne hij]
    exact hj
  · rw [heq]
    show (st.cells.map cancelPending)[j]? = some (JCell.done a)
    rw [List.getElem?_map, hj]
    rfl

theorem done_stable_foldl {α ε : Type} {ps : List (PInput α ε)} :
    ∀ (l : List Nat) (st : JState α ε) {j : Nat} {a : α},
      st.cells[j]? = some (JCell.done a) →
      (l.foldl (deliverOne ps) st).cells[j]? = some (JCell.done a) := by
  intro l
  induction l with
  | nil => intro st j a h; exact h
  | cons i rest ih =>
    intro st j a h
    rw [List.foldl_cons]
    exact ih _ (done_stable h i)

theorem mem_scheduleIdx {α ε : Type} {ps : List (PInput α ε)} {i : Nat}
    {p : PInput α ε} {tmax : Nat} (hp : ps[i]? = some p)
    (ht : p.time < tmax) : i ∈ scheduleIdx ps tmax := by
  unfold scheduleIdx
  rw [List.mem_flatMap]
  refine ⟨p.time, List.mem_range.mpr ht, ?_⟩
  refine List.mem_filter.mpr
    ⟨List.mem_range.mpr (lt_of_getElem?_eq_some hp), ?_⟩
  simp [hp]

theorem JInv_joinAll {α ε : Type} (ps : List (PInput α ε)) (tmax : Nat) :
    JInv ps (joinAll ps tmax) :=
  JInv_foldl _ _ (JInv_init ps)

/-- If some input fails inside the observation window, the combined
promise fails. -/
theorem joinAll_fails {α ε : Type} {ps : List (PInput α ε)} {i : Nat}
    {p : PInput α ε} {e : ε} {tmax : Nat}
    (hp : ps[i]? = some p) (he : p.result = Except.error e)
    (ht : p.time < tmax) :
    ∃ e2, (joinAll ps tmax).out = JOut.err e2 := by
  obtain ⟨l1, l2, hsched⟩ := List.append_of_mem (mem_scheduleIdx hp ht)
  set st1 := l1.foldl (deliverOne ps) (initJState ps) with hst1
  have hfold : joinAll ps tmax =
      (i :: l2).foldl (deliverOne ps) st1 := by
    rw [joinAll, hsched, List.foldl_append]
  have hinv1 : JInv ps st1 := JInv_foldl l1 _ (JInv_init ps)
  obtain ⟨hlen, hdone, hok, herr, hpend⟩ := hinv1
  have hi : i < ps.length := lt_of_getElem?_eq_some hp
  cases hout : st1.out with
  | err e2 =>
    refine ⟨e2, ?_⟩
    rw [hfold, List.foldl_cons, deliverOne_errAbsorb hout,
      foldl_errAbsorb hout l2]
    exact hout
  | ok vs =>
    exfalso
    have hcells := hok vs hout
    have hvlen : vs.length = ps.length := by
      rw [← hlen, hcells, List.length_map]
    have hv : ∃ v, vs[i]? = some v := by
      cases hv : vs[i]? with
      | some v => exact ⟨v, rfl⟩
      | none => rw [List.getElem?_eq_none_iff] at hv; omega
    obtain ⟨v, hv⟩ := hv
    have hci : st1.cells[i]? = some (JCell.done v) := by
      rw [hcells, List.getElem?_map, hv]; rfl
    obtain ⟨p', hp', hres'⟩ := hdone i v hci
    rw [hp] at hp'
    rw [show p = p' from Option.some.inj hp'] at he
    rw [he] at hres'
    exact Except.noConfusion hres'
  | pending =>
    have hci : st1.cells[i]? = some JCell.pending := by
      cases hc : st1.cells[i]? with
      | none =>
        exfalso
        rw [List.getElem?_eq_none_iff] at hc
        omega
      | some c =>
        cases c with
        | pending => rfl
        | done a =>
          exfalso
          obtain ⟨p', hp', hres'⟩ := hdone i a hc
          rw [hp] at hp'
          rw [show p = p' from Option.some.inj hp'] at he
          rw [he] at hres'
          exact Except.noConfusion hres'
        | cancelled =>
          exfalso
          exact (hpend hout).1 _ (List.mem_iff_getElem?.mpr ⟨i, hc⟩) rfl
    have hstep : deliverOne ps st1 i =
        { cells := st1.cells.map cancelPending, out := JOut.err e } := by
      simp [deliverOne, hout, hp, hci, he]
    have hstepOut : (deliverOne ps st1 i).out = JOut.err e := by
      rw [hstep]
    refine ⟨e, ?_⟩
    rw [hfold, List.foldl_cons, foldl_errAbsorb hstepOut l2]
    exact hstepOut

/-- Under a failure-free schedule, a resolving input's cell ends up
done. -/
theorem cell_done_final {α ε : Type} {ps : List (PInput α ε)}
    {tmax j : Nat} {q : PInput α ε} {a : α}
    (hq : ps[j]? = some q) (hres : q.result = Except.ok a)
    (ht : q.time < tmax)
    (hnoerr : ∀ e, (joinAll ps tmax).out ≠ JOut.err e) :
    ∃ b, (joinAll ps tmax).cells[j]? = some (JCell.done b) := by
  obtain ⟨l1, l2, hsched⟩ := List.append_of_mem (mem_scheduleIdx hq ht)
  set st1 := l1.foldl (deliverOne ps) (initJState ps) with hst1
  have hfold : joinAll ps tmax =
      l2.foldl (deliverOne ps) (deliverOne ps st1 j) := by
    rw [joinAll, hsched, List.foldl_append, List.foldl_cons]
  have hinv1 : JInv ps st1 := JInv_foldl l1 _ (JInv_init ps)
  obtain ⟨hlen, hdone, hok, herr, hpend⟩ := hinv1
  have hj : j < ps.length := lt_of_getElem?_eq_some hq
  cases hout : st1.out with
  | err e =>
    exfalso
    apply hnoerr e
    rw [hfold, deliverOne_errAbsorb hout, foldl_errAbsorb hout l2]
    exact hout
  | ok vs =>
    have hcells := hok vs hout
    have hvlen : vs.length = ps.length := by
      rw [← hlen, hcells, List.length_map]
    have hv : ∃ v, vs[j]? = some v := by
      cases hv : vs[j]? with
      | some v => exact ⟨v, rfl⟩
      | none => rw [List.getElem?_eq_none_iff] at hv; omega
    obtain ⟨v, hv⟩ := hv
    have hcj : st1.cells[j]? = some (JCell.done v) := by
      rw [hcells, List.getElem?_map, hv]; rfl
    refine ⟨v, ?_⟩
    rw [hfold]
    exact done_stable_foldl l2 _ (done_stable hcj j)
  | pending =>
    cases hc : st1.cells[j]? with
    | none =>
      exfalso
      rw [List.getElem?_eq_none_iff] at hc
      omega
    | some c =>
      cases c with
      | cancelled =>
        exfalso
        exact (hpend hout).1 _ (List.mem_iff_getElem?.mpr ⟨j, hc⟩) rfl
      | done b =>
        refine ⟨b, ?_⟩
        rw [hfold]
        exact done_stable_foldl l2 _ (done_stable hc j)
      | pending =>
        have hstep : deliverOne ps st1 j =
            { cells := st1.cells.set j (JCell.done a),
              out := match collectDone (st1.cells.set j (JCell.done a)) with
                     | some ws => JOut.ok ws
                     | none => JOut.pending } := by
          simp [deliverOne, hout, hq, hc, hres]
        have hcj2 : (deliverOne ps st1 j).cells[j]? =
            some (JCell.done a) := by
          rw [hstep]
          show (st1.cells.set j (JCell.done a))[j]? = _
          rw [List.getElem?_set_eq_of_lt _ (by rw [hlen]; exact hj)]
        refine ⟨a, ?_⟩
        rw [hfold]
        exact done_stable_foldl l2 _ hcj2

/-- If every input resolves inside the window, the combined promise
resolves. -/
theorem joinAll_all_ok {α ε : Type} {ps : List (PInput α ε)} {tmax : Nat}
    (hall : ∀ (j : Nat) (q : PInput α ε), ps[j]? = some q →
      (∃ a, q.result = Except.ok a) ∧ q.time < tmax) :
    ∃ vs, (joinAll ps tmax).out = JOut.ok vs := by
  obtain ⟨hlen, hdone, hok, herr, hpend⟩ := JInv_joinAll ps tmax
  cases hout : (joinAll ps tmax).out with
  | ok vs => exact ⟨vs, rfl⟩
  | err e =>
    obtain ⟨⟨j, q, hq, hresq⟩, _⟩ := herr e hout
    obtain ⟨⟨a, ha⟩, _⟩ := hall j q hq
    rw [ha] at hresq
    exact absurd hresq (fun h => Except.noConfusion h)
  | pending =>
    exfalso
    have hnoerr : ∀ e, (joinAll ps tmax).out ≠ JOut.err e := by
      intro e h
      rw [hout] at h
      exact JOut.noConfusion h
    have hdoneAll : ∀ c ∈ (joinAll ps tmax).cells, ∃ a, c = JCell.done a := by
      intro c hcm
      obtain ⟨j, hj⟩ := List.mem_iff_getElem?.mp hcm
      have hjlen : j < ps.length := by
        have := lt_of_getElem?_eq_some hj
        omega
      have hq : ∃ q, ps[j]? = some q := by
        cases hq : ps[j]? with
        | some q => exact ⟨q, rfl⟩
        | none => rw [List.getElem?_eq_none_iff] at hq; omega
      obtain ⟨q, hq⟩ := hq
      obtain ⟨⟨a, ha⟩, htq⟩ := hall j q hq
      obtain ⟨b, hb⟩ := cell_done_final hq ha htq hnoerr
      rw [hj] at hb
      exact ⟨b, Option.some.inj hb⟩
    obtain ⟨vs, hvs⟩ := collectDone_of_all_done hdoneAll
    have hnone := (hpend hout).2
    rw [hvs] at hnone
    exact Option.noConfusion hnone

/-- Claim C7: `join_all` (`Promise::all`) resolves only when every
input resolves, collecting the results in input order; if any input
fails within the window, the combined promise fails with a failing
input's failure, never resolves successfully, and — once failed — no
further delivery changes it; a unique failing input's own failure is
the one reported; on failure every remaining input is cancelled (no
cell left pending); and when every input resolves the combined promise
resolves. -/
theorem claim_c7 {α ε : Type} (ps : List (PInput α ε)) (tmax : Nat) :
    (∀ vs, (joinAll ps tmax).out = JOut.ok vs →
      vs.length = ps.length ∧
      ∀ (i : Nat) (p : PInput α ε), ps[i]? = some p →
        ∃ v, vs[i]? = some v ∧ p.result = Except.ok v) ∧
    (∀ (i : Nat) (p : PInput α ε) (e : ε),
      ps[i]? = some p → p.result = Except.error e → p.time < tmax →
      (∃ e2, (joinAll ps tmax).out = JOut.err e2 ∧
        ∃ j : Nat, ∃ q : PInput α ε, ps[j]? = some q ∧
          q.result = Except.error e2) ∧
      ∀ vs, (joinAll ps tmax).out ≠ JOut.ok vs) ∧
    (∀ (i : Nat) (p : PInput α ε) (e : ε),
      ps[i]? = some p → p.result = Except.error e → p.time < tmax →
      (∀ (j : Nat) (q : PInput α ε), ps[j]? = some q → j ≠ i →
        ∃ a, q.result = Except.ok a) →
      (joinAll ps tmax).out = JOut.err e) ∧
    (∀ e, (joinAll ps tmax).out = JOut.err e →
      ∀ c ∈ (joinAll ps tmax).cells, c ≠ JCell.pending) ∧
    ((∀ (j : Nat) (q : PInput α ε), ps[j]? = some q →
        (∃ a, q.result = Except.ok a) ∧ q.time < tmax) →
      ∃ vs, (joinAll ps tmax).out = JOut.ok vs) := by
  obtain ⟨hlen, hdone, hok, herr, hpend⟩ := JInv_joinAll ps tmax
  refine ⟨?_, ?_, ?_, ?_, ?_⟩
  · intro vs hvs
    have hcells := hok vs hvs
    have hvlen : vs.length = ps.length := by
      rw [← hlen, hcells, List.length_map]
    refine ⟨hvlen, ?_⟩
    intro i p hp
    have hi : i < ps.length := lt_of_getElem?_eq_some hp
    have hv : ∃ v, vs[i]? = some v := by
      cases hv : vs[i]? with
      | some v => exact ⟨v, rfl⟩
      | none => rw [List.getElem?_eq_none_iff] at hv; omega
    obtain ⟨v, hv⟩ := hv
    have hci : (joinAll ps tmax).cells[i]? = some (JCell.done v) := by
      rw [hcells, List.getElem?_map, hv]; rfl
    obtain ⟨p', hp', hres'⟩ := hdone i v hci
    rw [hp] at hp'
    refine ⟨v, hv, ?_⟩
    rw [show p = p' from Option.some.inj hp']
    exact hres'
  · intro i p e hp he ht
    obtain ⟨e2, he2⟩ := joinAll_fails hp he ht
    refine ⟨⟨e2, he2, (herr e2 he2).1⟩, ?_⟩
    intro vs hvs
    rw [he2] at hvs
    exact JOut.noConfusion hvs
  · intro i p e hp he ht hothers
    obtain ⟨e2, he2⟩ := joinAll_fails hp he ht
    obtain ⟨⟨j, q, hq, hresq⟩, _⟩ := herr e2 he2
    by_cases hji : j = i
    · subst hji
      rw [hp] at hq
      rw [← show p = q from Option.some.inj hq] at hresq
      rw [he] at hresq
      rw [show e = e2 from Except.error.inj hresq]
      exact he2
    · obtain ⟨a, ha⟩ := hothers j q hq hji
      rw [ha] at hresq
      exact absurd hresq (fun h => Except.noConfusion h)
  · intro e he
    exact (herr e he).2
  · exact joinAll_all_ok

/-- Concrete inputs for the C7 witness: the middle input fails at
instant 1, its siblings resolve at instants 0 and 2. -/
def psC : List (PInput Nat IoError) :=
  [⟨0, Except.ok 1⟩, ⟨1, Except.error ⟨5⟩⟩, ⟨2, Except.ok 3⟩]

/-- Witness for C7: with one failing input among succeeding ones, the
combined promise fails with a failing input's error and never resolves
successfully. -/
theorem claim_c7_witness :
    (∃ e2, (joinAll psC 3).out = JOut.err e2 ∧
      ∃ j : Nat, ∃ q : PInput Nat IoError, psC[j]? = some q ∧
        q.result = Except.error e2) ∧
    ∀ vs, (joinAll psC 3).out ≠ JOut.ok vs :=
  (claim_c7 psC 3).2.1 1 ⟨1, Except.error ⟨5⟩⟩ ⟨5⟩ rfl rfl (by decide)

end Gj
